import Mathlib

/-!
Verification of the chunking, prompt-building, indexing and bootstrap logic of
the watsonx-rag notebook (src/RAG.ipynb).  All definitions below are shallow
embeddings of the Python source: strings are Lean `String`s, Python lists are
Lean `List`s, and the per-page mutation performed by `get_chunks` on
`text_tokens` is expressed as explicit carry passing.
-/

set_option maxRecDepth 4000
set_option maxHeartbeats 1000000

/-- Whitespace class of the regular expression `\s` used by `clean_text`
(`re.sub(r"\s+", " ", ...)`), modelled over the ASCII whitespace characters:
space, tab, newline, carriage return, vertical tab, form feed. -/
def pyIsSpace (c : Char) : Bool :=
  c = ' ' || c = '\t' || c = '\n' || c = '\r' || c = '\x0b' || c = '\x0c'

/-- The `raw_text.replace("\n", " ")` step of `clean_text`: each newline
character becomes a space. -/
def replaceNewlines (l : List Char) : List Char :=
  l.map (fun c => if c = '\n' then ' ' else c)

/-- Collapse every maximal run of whitespace into a single space, the effect of
`re.sub(r"\s+", " ", ...)`.  The boolean records whether the previous character
was part of a whitespace run that has already emitted its single space. -/
def collapseAux : Bool → List Char → List Char
  | _, [] => []
  | prev, c :: cs =>
    if pyIsSpace c then
      if prev then collapseAux true cs else ' ' :: collapseAux true cs
    else c :: collapseAux false cs

/-- Embedding of `clean_text` from src/RAG.ipynb: replace newlines by spaces,
then collapse whitespace runs to single spaces. -/
def clean_text (raw_text : String) : String :=
  String.mk (collapseAux false (replaceNewlines raw_text.data))

/-- Python `str.split(" ")` on the character list: split at every single space,
producing empty tokens for adjacent, leading and trailing separators; the empty
input yields `[""]`. -/
def pySplitAux : List Char → List String
  | [] => [""]
  | c :: cs =>
    if c = ' ' then "" :: pySplitAux cs
    else
      match pySplitAux cs with
      | [] => [String.mk [c]]
      | w :: ws => String.mk (c :: w.data) :: ws

/-- Python `s.split(" ")`. -/
def pySplit (s : String) : List String := pySplitAux s.data

/-- The word list of one page as computed in `get_chunks`:
`clean_text(page.extract_text()).split(" ")`. -/
def pageTokens (raw_text : String) : List String := pySplit (clean_text raw_text)

/-- Python `str.strip()` (with the ASCII whitespace class). -/
def pyStrip (s : String) : String :=
  String.mk (((s.data.dropWhile pyIsSpace).reverse.dropWhile pyIsSpace).reverse)

/-- Python `" ".join(ts)`. -/
def pyJoin : List String → String
  | [] => ""
  | [t] => t
  | t :: ts => t ++ " " ++ pyJoin ts

/-- One decimal digit character. -/
def decDigit : Nat → Char
  | 0 => '0'
  | 1 => '1'
  | 2 => '2'
  | 3 => '3'
  | 4 => '4'
  | 5 => '5'
  | 6 => '6'
  | 7 => '7'
  | 8 => '8'
  | _ => '9'

/-- Fuelled decimal rendering of a natural number, most significant digit
first. -/
def decReprAux : Nat → Nat → List Char
  | 0, _ => []
  | fuel + 1, n =>
    if n < 10 then [decDigit n] else decReprAux fuel (n / 10) ++ [decDigit (n % 10)]

/-- Decimal rendering of a natural number, the effect of Python `str(n)` /
f-string interpolation for the nonnegative integers appearing in the source. -/
def decRepr (n : Nat) : String := String.mk (decReprAux (n + 1) n)

/-- A parsed PDF page as consumed by `get_chunks`: the text produced by
`page.extract_text()` together with `page.page_number`. -/
structure Page where
  raw_text : String
  page_number : Nat

/-- Formatting of one emitted chunk in `get_chunks`:
`f'[Page no. {page_number}]' + ' ' + '"' + " ".join(chunk).strip() + '"'`. -/
def formatChunk (chunk : List String) (page_number : Nat) : String :=
  "[Page no. " ++ decRepr page_number ++ "]" ++ " " ++ "\"" ++
    pyStrip (pyJoin chunk) ++ "\""

/-- Fuelled splitting of a word list into consecutive windows of `m` words
(the last window may be shorter), the effect of
`for i in range(0, len(words), max_words): words[i:i+max_words]`. -/
def windowsAux (m : Nat) : Nat → List String → List (List String)
  | 0, _ => []
  | _ + 1, [] => []
  | fuel + 1, w => w.take m :: windowsAux m fuel (w.drop m)

/-- The consecutive `m`-word windows of a word list. -/
def windows (m : Nat) (w : List String) : List (List String) :=
  windowsAux m w.length w

/-- The page loop of `get_chunks`.  `words` and `page_number` are the entry of
`text_tokens` currently being processed (after any carry from earlier pages),
`rest` the remaining entries.  On a non-final page the trailing window shorter
than `max_words` (the last `len words % max_words` words, when that remainder
is nonzero) is not emitted but prepended to the next page's word list, exactly
as the source mutates `text_tokens[idx + 1]`. -/
def getChunksGo (m : Nat) : List String → Nat → List (List String × Nat) → List (String × Nat)
  | w, p, [] => (windows m w).map (fun c => (formatChunk c p, p))
  | w, p, (w2, p2) :: rest =>
    ((windows m (w.take (w.length - w.length % m))).map (fun c => (formatChunk c p, p)))
      ++ getChunksGo m (w.drop (w.length - w.length % m) ++ w2) p2 rest

/-- Embedding of `get_chunks` from src/RAG.ipynb. -/
def get_chunks (pages : List Page) (max_words : Nat) : List (String × Nat) :=
  match pages.map (fun page => (pageTokens page.raw_text, page.page_number)) with
  | [] => []
  | (words, page_number) :: rest => getChunksGo max_words words page_number rest

/-- Token-level companion of `getChunksGo`: the same recursion, returning the
raw word windows instead of their formatted strings. -/
def getChunksTokGo (m : Nat) : List String → Nat → List (List String × Nat) → List (List String × Nat)
  | w, p, [] => (windows m w).map (fun c => (c, p))
  | w, p, (w2, p2) :: rest =>
    ((windows m (w.take (w.length - w.length % m))).map (fun c => (c, p)))
      ++ getChunksTokGo m (w.drop (w.length - w.length % m) ++ w2) p2 rest

/-- Removing the `[Page no. N] "..."` wrapper of an emitted chunk: the
characters strictly between the first and the last double quote. -/
def unwrapChunk (s : String) : String :=
  String.mk (((((s.data.dropWhile (fun c => c != '"')).drop 1).reverse.dropWhile
    (fun c => c != '"')).drop 1).reverse)

/-- The word list of an emitted chunk, read back from its display string:
strip the wrapper and split on single spaces. -/
def unwrapWords (s : String) : List String := pySplit (unwrapChunk s)

/-- The page number of the last entry of a token list, defaulting to the
current page's number. -/
def lastPageNum (p : Nat) : List (List String × Nat) → Nat
  | [] => p
  | e :: rest => lastPageNum e.2 rest

/-- The page number of the last page of a document (0 when there is none). -/
def lastPageOf (pages : List Page) : Nat :=
  match pages.getLast? with
  | some page => page.page_number
  | none => 0

/-- The instruction block of `build_prompt`, exactly as in the source. -/
def instructionsText : String :=
  "Instructions: Compose a comprehensive reply to the query using the search results given. " ++
  "If the search results mention multiple subjects " ++
  "with the same name, create separate answers for each. Only include information found in the results and " ++
  "don't add any additional information. Make sure the answer is correct and don't output false content. " ++
  "If the text does not relate to the query, simply state 'Found Nothing'. Ignore outlier " ++
  "search results which has nothing to do with the question. Only answer what is asked. The " ++
  "answer should be short and concise."

/-- Embedding of `build_prompt` from src/RAG.ipynb. -/
def build_prompt (question : String) (topn_chunks : List String) : String :=
  let prompt := "Search results:\n"
  let prompt := topn_chunks.foldl (fun acc chunk => acc ++ chunk ++ "\n\n") prompt
  let prompt := prompt ++ instructionsText
  prompt ++ "\n\n\nQuery: " ++ question ++ "\n\nAnswer: "

/-- Document-name normalization of `insert_document`:
`document_path.stem.replace(" ", "-").replace("_", "-")`. -/
def documentNameOf (stem : String) : String :=
  String.mk (stem.data.map (fun c => if c = ' ' then '-' else if c = '_' then '-' else c))

/-- Chunk identifiers built by `insert_document`:
`f"{document_name}_p{page_number}-{chunk_index}"` with `chunk_index` the
zero-based position in emission order. -/
def document_ids (document_name : String) (chunks : List (String × Nat)) : List String :=
  chunks.enum.map (fun ic => document_name ++ "_p" ++ decRepr ic.2.2 ++ "-" ++ decRepr ic.1)

/-- Return status of `ensure_collection`. -/
inductive CollectionStatus where
  | COLLECTION_CREATED
  | COLLECTION_EXISTS
deriving DecidableEq

/-- Abstract state of the external chroma store: the names of the existing
collections and the number of `collection.add` calls performed so far. -/
structure Store where
  collections : List String
  addCalls : Nat
deriving DecidableEq

/-- The collection name used by `ensure_collection`. -/
def demo_collection : String := "harry_potter"

/-- Abstract `client.get_collection`: `some` when the named collection exists,
`none` for the `ValueError` raised when it is absent. -/
def get_collection (st : Store) (name : String) : Option Unit :=
  if name ∈ st.collections then some () else none

/-- Abstract `client.get_or_create_collection`. -/
def get_or_create_collection (st : Store) (name : String) : Store :=
  if name ∈ st.collections then st else { st with collections := name :: st.collections }

/-- Embedding of `ensure_collection`: on a successful lookup return
`COLLECTION_EXISTS` (and `None` for the collection handle); on the
`ValueError` branch create the collection and return `COLLECTION_CREATED`. -/
def ensure_collection (st : Store) : (CollectionStatus × Option Unit) × Store :=
  match get_collection st demo_collection with
  | some _ => ((CollectionStatus.COLLECTION_EXISTS, none), st)
  | none => ((CollectionStatus.COLLECTION_CREATED, some ()), get_or_create_collection st demo_collection)

/-- One `collection.add(documents=..., ids=...)` call on the abstract store. -/
def collectionAdd (st : Store) : Store :=
  { st with addCalls := st.addCalls + 1 }

/-- A PDF file handed to `insert_document`: its path stem and parsed pages. -/
structure PdfDocument where
  stem : String
  pages : List Page

/-- Embedding of `insert_document`: build the chunks and their identifiers,
then perform exactly one `collection.add` call. -/
def insert_document (doc : PdfDocument) (st : Store) : Store :=
  let chunks := get_chunks doc.pages 150
  let _ids := document_ids (documentNameOf doc.stem) chunks
  collectionAdd st

/-- Embedding of the ingestion bootstrap cell: run `ensure_collection`; when
the status is `COLLECTION_EXISTS` load nothing, otherwise run
`insert_document` over every PDF of the input directory. -/
def runIngestion (st : Store) (pdfs : List PdfDocument) : CollectionStatus × Store :=
  let r := ensure_collection st
  match r.1.1 with
  | CollectionStatus.COLLECTION_EXISTS => (CollectionStatus.COLLECTION_EXISTS, r.2)
  | CollectionStatus.COLLECTION_CREATED =>
    (CollectionStatus.COLLECTION_CREATED, pdfs.foldl (fun s d => insert_document d s) r.2)

/-- One parsed response fragment of the llama.cpp streaming backend: the
result of `json.loads(chunk.decode('utf-8')[6:])` when it succeeds. -/
structure Frame where
  content : String
  stop : Bool
deriving DecidableEq

/-- Embedding of the llama.cpp streaming consumer loop.  The first argument is
the current value of the Python variable `data` (`none` while it is still
unassigned).  A fragment that fails to parse (`none` in the input list) leaves
`data` unchanged (`except: pass`); the loop body then runs on that stale
value.  Using `data` while it is still unassigned is a `NameError`, modelled
as the `none` result.  The `some` result collects the `content` fields printed
by the `stop is False` branch, in order. -/
def consumeFragments : Option Frame → List (Option Frame) → Option (List String)
  | _, [] => some []
  | prev, f :: fs =>
    let data := match f with
      | some d => some d
      | none => prev
    match data with
    | none => none
    | some d =>
      match consumeFragments (some d) fs with
      | none => none
      | some out => some (if d.stop = false then d.content :: out else out)

/-- The output the specification attributes to the streaming consumer: every
well-formed fragment with `stop = false` contributes its `content`, malformed
fragments are skipped. -/
def claimedFragments (fragments : List (Option Frame)) : List String :=
  fragments.filterMap (fun f => f.bind (fun d => if d.stop = false then some d.content else none))

/-- The sum of the per-page word counts of a document, counting the tokens of
each page's split word list. -/
def totalWords (pages : List Page) : Nat :=
  (pages.map (fun page => (pageTokens page.raw_text).length)).sum

/-- Concrete page with 170 distinct words, used for the two-page carry
scenario. -/
def c5page1 : Page := ⟨pyJoin ((List.range 170).map decRepr), 1⟩

/-- Concrete page with 80 distinct words, used for the two-page carry
scenario. -/
def c5page2 : Page := ⟨pyJoin ((List.range 80).map (fun i => decRepr (200 + i))), 2⟩

/-- Decimal value of a digit character. -/
def digitVal (c : Char) : Nat := c.toNat - 48

/-- Decimal value of a digit string, most significant digit first. -/
def decVal (l : List Char) : Nat := l.foldl (fun a c => a * 10 + digitVal c) 0

/-- The suffix of a character list after its last dash (the whole list when no
dash occurs). -/
def afterLastDash (l : List Char) : List Char :=
  (l.reverse.takeWhile (fun c => c != '-')).reverse

theorem pySplitAux_ne_nil (l : List Char) : pySplitAux l ≠ [] := by
  induction l with
  | nil => simp [pySplitAux]
  | cons c cs ih =>
    simp only [pySplitAux]
    split
    · simp
    · cases h : pySplitAux cs with
      | nil => simp
      | cons w ws => simp

theorem pySplit_ne_nil (s : String) : pySplit s ≠ [] := pySplitAux_ne_nil s.data

theorem string_mk_data (s : String) : String.mk s.data = s := rfl

theorem string_data_append (s t : String) : (s ++ t).data = s.data ++ t.data := rfl

theorem string_eq_of_data_eq {s t : String} (h : s.data = t.data) : s = t := by
  cases s; cases t; exact congrArg String.mk h

theorem string_ne_empty_iff_data (s : String) : s ≠ "" ↔ s.data ≠ [] := by
  constructor
  · intro h hd
    exact h (string_eq_of_data_eq hd)
  · intro h he
    subst he
    exact h rfl

theorem pySplitAux_cons_space (cs : List Char) :
    pySplitAux (' ' :: cs) = "" :: pySplitAux cs := by
  simp [pySplitAux]

theorem pySplitAux_cons_of (c : Char) (cs : List Char) (hc : c ≠ ' ')
    (w : String) (ws : List String) (h : pySplitAux cs = w :: ws) :
    pySplitAux (c :: cs) = String.mk (c :: w.data) :: ws := by
  simp [pySplitAux, hc, h]

theorem pySplitAux_append_space (l : List Char) :
    pySplitAux (l ++ [' ']) = pySplitAux l ++ [""] := by
  induction l with
  | nil => rfl
  | cons c cs ih =>
    by_cases hc : c = ' '
    · subst hc
      rw [List.cons_append, pySplitAux_cons_space, pySplitAux_cons_space, ih]
      rfl
    · cases h : pySplitAux cs with
      | nil => exact absurd h (pySplitAux_ne_nil cs)
      | cons w ws =>
        rw [List.cons_append,
          pySplitAux_cons_of c (cs ++ [' ']) hc w (ws ++ [""]) (by rw [ih, h]; rfl),
          pySplitAux_cons_of c cs hc w ws h]
        rfl

theorem pySplitAux_word_append (w r : List Char) (hw : ∀ c ∈ w, c ≠ ' ') :
    pySplitAux (w ++ ' ' :: r) = String.mk w :: pySplitAux r := by
  induction w with
  | nil => simp [pySplitAux_cons_space]
  | cons c cs ih =>
    have hc : c ≠ ' ' := hw c (by simp)
    have ihr := ih (fun x hx => hw x (by simp [hx]))
    rw [List.cons_append, pySplitAux_cons_of c (cs ++ ' ' :: r) hc (String.mk cs)
      (pySplitAux r) ihr]

theorem pySplitAux_no_space (w : List Char) (hw : ∀ c ∈ w, c ≠ ' ') :
    pySplitAux w = [String.mk w] := by
  induction w with
  | nil => rfl
  | cons c cs ih =>
    have hc : c ≠ ' ' := hw c (by simp)
    have ihr := ih (fun x hx => hw x (by simp [hx]))
    rw [pySplitAux_cons_of c cs hc (String.mk cs) [] ihr]

theorem pySplitAux_token_chars (l : List Char) :
    ∀ t ∈ pySplitAux l, ∀ c ∈ t.data, c ∈ l ∧ c ≠ ' ' := by
  induction l with
  | nil =>
    intro t ht c hc
    simp [pySplitAux] at ht
    subst ht
    simp at hc
  | cons x xs ih =>
    intro t ht c hc
    by_cases hx : x = ' '
    · subst hx
      simp only [pySplitAux, if_pos rfl] at ht
      rcases List.mem_cons.mp ht with h | h
      · subst h; simp at hc
      · have := ih t h c hc
        exact ⟨List.mem_cons_of_mem _ this.1, this.2⟩
    · simp only [pySplitAux, if_neg hx] at ht
      cases h : pySplitAux xs with
      | nil => exact absurd h (pySplitAux_ne_nil xs)
      | cons w ws =>
        rw [h] at ht
        rcases List.mem_cons.mp ht with h1 | h1
        · subst h1
          simp only [String.mk] at hc
          rcases List.mem_cons.mp hc with h2 | h2
          · subst h2; exact ⟨List.mem_cons_self _ _, hx⟩
          · have := ih w (by rw [h]; exact List.mem_cons_self _ _) c h2
            exact ⟨List.mem_cons_of_mem _ this.1, this.2⟩
        · have := ih t (by rw [h]; exact List.mem_cons_of_mem _ h1) c hc
          exact ⟨List.mem_cons_of_mem _ this.1, this.2⟩

theorem collapseAux_space_char (b : Bool) (l : List Char) :
    ∀ c ∈ collapseAux b l, pyIsSpace c = true → c = ' ' := by
  induction l generalizing b with
  | nil => intro c hc; simp [collapseAux] at hc
  | cons x xs ih =>
    intro c hc hsp
    by_cases hx : pyIsSpace x
    · rw [collapseAux, if_pos hx] at hc
      cases b with
      | true => exact ih true c hc hsp
      | false =>
        simp only [Bool.false_eq_true, if_neg] at hc
        rcases List.mem_cons.mp hc with h | h
        · exact h
        · exact ih true c h hsp
    · rw [collapseAux, if_neg hx] at hc
      rcases List.mem_cons.mp hc with h | h
      · subst h
        exact absurd hsp (by simpa using hx)
      · exact ih false c h hsp

theorem collapseAux_true_all_space (l : List Char)
    (h : ∀ c ∈ l, pyIsSpace c = true) : collapseAux true l = [] := by
  induction l with
  | nil => rfl
  | cons x xs ih =>
    rw [collapseAux, if_pos (h x (by simp))]
    simp only [if_pos]
    exact ih (fun c hc => h c (by simp [hc]))

theorem collapseAux_false_ne_nil (x : Char) (xs : List Char) :
    collapseAux false (x :: xs) ≠ [] := by
  rw [collapseAux]
  by_cases hx : pyIsSpace x
  · rw [if_pos hx]; simp
  · rw [if_neg hx]; simp

theorem collapseAux_ends_space (l : List Char) (c : Char)
    (hl : l.getLast? = some c) (hc : pyIsSpace c = true) :
    ∀ b, collapseAux b l = [] ∨ ∃ l', collapseAux b l = l' ++ [' '] := by
  induction l with
  | nil => simp at hl
  | cons x xs ih =>
    intro b
    cases xs with
    | nil =>
      simp at hl
      subst hl
      rw [collapseAux, if_pos hc]
      cases b with
      | true => exact Or.inl (by simp [collapseAux])
      | false => exact Or.inr ⟨[], by simp [collapseAux]⟩
    | cons y ys =>
      have hl2 : (y :: ys).getLast? = some c := by
        rwa [List.getLast?_cons_cons] at hl
      by_cases hx : pyIsSpace x
      · rw [collapseAux, if_pos hx]
        cases b with
        | true => exact ih hl2 true
        | false =>
          rcases ih hl2 true with h | ⟨l', h⟩
          · exact Or.inr ⟨[], by simp [h]⟩
          · exact Or.inr ⟨' ' :: l', by simp [h]⟩
      · rw [collapseAux, if_neg hx]
        rcases ih hl2 false with h | ⟨l', h⟩
        · exact absurd h (collapseAux_false_ne_nil y ys)
        · exact Or.inr ⟨x :: l', by simp [h]⟩

theorem replaceNewlines_space (c : Char) (h : pyIsSpace c = true) :
    pyIsSpace (if c = '\n' then ' ' else c) = true := by
  by_cases hc : c = '\n'
  · simp [hc, pyIsSpace]
  · rwa [if_neg hc]

theorem clean_text_chars (s : String) :
    ∀ c ∈ (clean_text s).data, pyIsSpace c = true → c = ' ' :=
  collapseAux_space_char false (replaceNewlines s.data)

theorem pageTokens_no_space (s : String) :
    ∀ t ∈ pageTokens s, ∀ c ∈ t.data, pyIsSpace c = false := by
  intro t ht c hc
  have h1 := pySplitAux_token_chars (clean_text s).data t ht c hc
  by_cases hsp : pyIsSpace c = true
  · exact absurd (clean_text_chars s c h1.1 hsp) h1.2
  · simpa using hsp

theorem pyJoin_cons_cons (t t2 : String) (ts : List String) :
    pyJoin (t :: t2 :: ts) = t ++ " " ++ pyJoin (t2 :: ts) := rfl

theorem pyJoin_data_cons (t t2 : String) (ts : List String) :
    (pyJoin (t :: t2 :: ts)).data = t.data ++ ' ' :: (pyJoin (t2 :: ts)).data := by
  rw [pyJoin_cons_cons, string_data_append, string_data_append]
  simp

theorem pyJoin_head (t : String) (ts : List String) (ht : t ≠ "") :
    (pyJoin (t :: ts)).data.head? = t.data.head? := by
  cases ts with
  | nil => rfl
  | cons t2 ts2 =>
    rw [pyJoin_data_cons]
    rcases hd : t.data with _ | ⟨c, l⟩
    · exact absurd hd ((string_ne_empty_iff_data t).mp ht)
    · simp

theorem pyJoin_data_ne_nil (t : String) (ts : List String) (ht : t ≠ "") :
    (pyJoin (t :: ts)).data ≠ [] := by
  intro h
  have h1 := pyJoin_head t ts ht
  rw [h] at h1
  rcases hd : t.data with _ | ⟨c, l⟩
  · exact absurd hd ((string_ne_empty_iff_data t).mp ht)
  · rw [hd] at h1
    simp at h1

theorem pyJoin_last (ts : List String) (hne : ts ≠ []) (h : ∀ t ∈ ts, t ≠ "") :
    ∃ t ∈ ts, (pyJoin ts).data.getLast? = t.data.getLast? := by
  induction ts with
  | nil => exact absurd rfl hne
  | cons t ts ih =>
    cases ts with
    | nil => exact ⟨t, by simp, rfl⟩
    | cons t2 ts2 =>
      obtain ⟨u, hu, hEq⟩ := ih (by simp) (fun x hx => h x (List.mem_cons_of_mem _ hx))
      refine ⟨u, List.mem_cons_of_mem _ hu, ?_⟩
      rw [pyJoin_data_cons, ← hEq]
      have hne2 : (pyJoin (t2 :: ts2)).data ≠ [] :=
        pyJoin_data_ne_nil t2 ts2 (h t2 (by simp))
      rw [List.getLast?_append_of_ne_nil t.data (by simp)]
      rcases hj : (pyJoin (t2 :: ts2)).data with _ | ⟨c, l⟩
      · exact absurd hj hne2
      · rw [List.getLast?_cons_cons]

theorem pyStrip_eq_self (s : String)
    (hh : ∀ c, s.data.head? = some c → pyIsSpace c = false)
    (hl : ∀ c, s.data.getLast? = some c → pyIsSpace c = false) :
    pyStrip s = s := by
  apply string_eq_of_data_eq
  show ((s.data.dropWhile pyIsSpace).reverse.dropWhile pyIsSpace).reverse = s.data
  rcases hd : s.data with _ | ⟨c, l⟩
  · simp
  · have hc : pyIsSpace c = false := hh c (by rw [hd]; rfl)
    rw [List.dropWhile_cons, hc]
    simp only [Bool.false_eq_true, if_false]
    rcases hr : (c :: l).reverse with _ | ⟨e, r⟩
    · exact absurd (congrArg List.length hr) (by simp)
    · have he : (c :: l).getLast? = some e := by
        rw [← List.head?_reverse, hr]; rfl
      have hes : pyIsSpace e = false := hl e (by rw [hd]; exact he)
      rw [List.dropWhile_cons, hes]
      simp only [Bool.false_eq_true, if_false]
      rw [← hr, List.reverse_reverse]

theorem pySplit_pyJoin (ts : List String) (hne : ts ≠ [])
    (h : ∀ t ∈ ts, ∀ c ∈ t.data, c ≠ ' ') :
    pySplitAux (pyJoin ts).data = ts := by
  induction ts with
  | nil => exact absurd rfl hne
  | cons t ts ih =>
    cases ts with
    | nil =>
      show pySplitAux t.data = [t]
      rw [pySplitAux_no_space t.data (h t (by simp)), string_mk_data]
    | cons t2 ts2 =>
      rw [pyJoin_data_cons, pySplitAux_word_append t.data _ (h t (by simp)),
        string_mk_data, ih (by simp) (fun u hu c hc => h u (List.mem_cons_of_mem _ hu) c hc)]

theorem unwrap_tokens_eq (c : List String) (hc : c ≠ [])
    (hne : ∀ t ∈ c, t ≠ "") (hsp : ∀ t ∈ c, ∀ x ∈ t.data, pyIsSpace x = false) :
    pySplit (pyStrip (pyJoin c)) = c := by
  have hsp2 : ∀ t ∈ c, ∀ x ∈ t.data, x ≠ ' ' := by
    intro t ht x hx h1
    have := hsp t ht x hx
    rw [h1] at this
    simp [pyIsSpace] at this
  rw [pyStrip_eq_self]
  · exact pySplit_pyJoin c hc hsp2
  · intro x hx
    rcases c with _ | ⟨t, ts⟩
    · exact absurd rfl hc
    · rw [pyJoin_head t ts (hne t (by simp))] at hx
      exact hsp t (by simp) x (List.mem_of_mem_head? (by rw [hx]; rfl))
  · intro x hx
    rcases c with _ | ⟨t, ts⟩
    · exact absurd rfl hc
    · obtain ⟨u, hu, hEq⟩ := pyJoin_last (t :: ts) (by simp) hne
      rw [hEq] at hx
      exact hsp u hu x (List.mem_of_getLast?_eq_some hx)

theorem digitVal_decDigit (d : Nat) (hd : d < 10) : digitVal (decDigit d) = d := by
  interval_cases d <;> rfl

theorem decVal_append_digit (l : List Char) (c : Char) :
    decVal (l ++ [c]) = decVal l * 10 + digitVal c := by
  unfold decVal
  rw [List.foldl_append]
  rfl

theorem decVal_decReprAux (fuel n : Nat) (h : n < fuel) :
    decVal (decReprAux fuel n) = n := by
  induction fuel generalizing n with
  | zero => omega
  | succ fuel ih =>
    rw [decReprAux]
    by_cases h10 : n < 10
    · rw [if_pos h10]
      show decVal ([] ++ [decDigit n]) = n
      rw [decVal_append_digit, digitVal_decDigit n h10]
      simp [decVal]
    · rw [if_neg h10, decVal_append_digit, digitVal_decDigit (n % 10) (Nat.mod_lt n (by omega)),
        ih (n / 10) (by omega)]
      omega

theorem decRepr_injective (x y : Nat) (h : decRepr x = decRepr y) : x = y := by
  have hd : decReprAux (x + 1) x = decReprAux (y + 1) y := congrArg String.data h
  have hx := decVal_decReprAux (x + 1) x (by omega)
  have hy := decVal_decReprAux (y + 1) y (by omega)
  rw [← hx, ← hy, hd]

theorem decReprAux_digits (fuel n : Nat) :
    ∀ c ∈ decReprAux fuel n, ∃ d, d < 10 ∧ c = decDigit d := by
  induction fuel generalizing n with
  | zero => intro c hc; simp [decReprAux] at hc
  | succ fuel ih =>
    intro c hc
    rw [decReprAux] at hc
    by_cases h10 : n < 10
    · rw [if_pos h10] at hc
      simp at hc
      exact ⟨n, h10, hc⟩
    · rw [if_neg h10] at hc
      rcases List.mem_append.mp hc with h | h
      · exact ih (n / 10) c h
      · simp at h
        exact ⟨n % 10, Nat.mod_lt n (by omega), h⟩

theorem decDigit_ne_dash (d : Nat) (hd : d < 10) : decDigit d ≠ '-' := by
  interval_cases d <;> decide

theorem decDigit_ne_quote (d : Nat) (hd : d < 10) : decDigit d ≠ '"' := by
  interval_cases d <;> decide

theorem decRepr_no_dash (n : Nat) : ∀ c ∈ (decRepr n).data, c ≠ '-' := by
  intro c hc
  obtain ⟨d, hd, hEq⟩ := decReprAux_digits (n + 1) n c hc
  rw [hEq]
  exact decDigit_ne_dash d hd

theorem decRepr_no_quote (n : Nat) : ∀ c ∈ (decRepr n).data, c ≠ '"' := by
  intro c hc
  obtain ⟨d, hd, hEq⟩ := decReprAux_digits (n + 1) n c hc
  rw [hEq]
  exact decDigit_ne_quote d hd

theorem dropWhile_append_of_all (p : Char → Bool) (A B : List Char)
    (h : ∀ a ∈ A, p a = true) : List.dropWhile p (A ++ B) = List.dropWhile p B := by
  induction A with
  | nil => rfl
  | cons a A ih =>
    rw [List.cons_append, List.dropWhile_cons, h a (by simp)]
    exact ih (fun x hx => h x (by simp [hx]))

theorem takeWhile_append_stop (p : Char → Bool) (A : List Char) (b : Char) (B : List Char)
    (hA : ∀ a ∈ A, p a = true) (hb : p b = false) :
    List.takeWhile p (A ++ b :: B) = A := by
  induction A with
  | nil =>
    rw [List.nil_append, List.takeWhile_cons, hb]
    simp
  | cons a A ih =>
    rw [List.cons_append, List.takeWhile_cons, hA a (by simp)]
    rw [ih (fun x hx => hA x (by simp [hx]))]
    simp

theorem unwrapChunk_wrap (pre : List Char) (body : String)
    (hpre : ∀ c ∈ pre, c ≠ '"') :
    unwrapChunk (String.mk (pre ++ '"' :: (body.data ++ ['"']))) = body := by
  unfold unwrapChunk
  apply string_eq_of_data_eq
  show ((((((pre ++ '"' :: (body.data ++ ['"'])).dropWhile (fun c => c != '"')).drop 1).reverse.dropWhile
    (fun c => c != '"')).drop 1).reverse) = body.data
  rw [dropWhile_append_of_all _ pre _ (fun a ha => by simp [hpre a ha])]
  rw [List.dropWhile_cons]
  simp only [bne_self_eq_false, Bool.false_eq_true, if_false, List.drop_succ_cons, List.drop_zero]
  rw [List.reverse_append]
  simp only [List.reverse_cons, List.reverse_nil, List.nil_append, List.singleton_append]
  rw [List.dropWhile_cons]
  simp only [bne_self_eq_false, Bool.false_eq_true, if_false, List.drop_succ_cons, List.drop_zero]
  exact List.reverse_reverse body.data

theorem unwrap_formatChunk (c : List String) (p : Nat) :
    unwrapChunk (formatChunk c p) = pyStrip (pyJoin c) := by
  have hdata : (formatChunk c p).data
      = ("[Page no. ".data ++ (decRepr p).data ++ "] ".data)
          ++ '"' :: ((pyStrip (pyJoin c)).data ++ ['"']) := by
    simp [formatChunk, string_data_append]
  rw [show formatChunk c p
      = String.mk (("[Page no. ".data ++ (decRepr p).data ++ "] ".data)
          ++ '"' :: ((pyStrip (pyJoin c)).data ++ ['"'])) from string_eq_of_data_eq hdata]
  apply unwrapChunk_wrap
  have hA : ∀ y ∈ "[Page no. ".data, y ≠ '"' := by decide
  have hB : ∀ y ∈ "] ".data, y ≠ '"' := by decide
  intro x hx
  rcases List.mem_append.mp hx with h | h
  · rcases List.mem_append.mp h with h1 | h1
    · exact hA x h1
    · exact decRepr_no_quote p x h1
  · exact hB x h

theorem unwrapWords_formatChunk (c : List String) (p : Nat) (hc : c ≠ [])
    (hne : ∀ t ∈ c, t ≠ "") (hsp : ∀ t ∈ c, ∀ x ∈ t.data, pyIsSpace x = false) :
    unwrapWords (formatChunk c p) = c := by
  unfold unwrapWords
  rw [unwrap_formatChunk]
  exact unwrap_tokens_eq c hc hne hsp

theorem afterLastDash_spec (A S : List Char) (hS : ∀ c ∈ S, c ≠ '-') :
    afterLastDash (A ++ '-' :: S) = S := by
  unfold afterLastDash
  rw [List.reverse_append, List.reverse_cons, List.append_assoc, List.singleton_append]
  rw [takeWhile_append_stop _ S.reverse '-' A.reverse
    (fun a ha => by simp [hS a (List.mem_reverse.mp ha)]) (by simp)]
  exact List.reverse_reverse S

theorem docId_inj (name : String) (p i q j : Nat)
    (h : name ++ "_p" ++ decRepr p ++ "-" ++ decRepr i
       = name ++ "_p" ++ decRepr q ++ "-" ++ decRepr j) : i = j := by
  have hdata := congrArg String.data h
  have h1 : (name ++ "_p" ++ decRepr p ++ "-" ++ decRepr i).data
      = (name.data ++ "_p".data ++ (decRepr p).data) ++ '-' :: (decRepr i).data := by
    simp [string_data_append]
  have h2 : (name ++ "_p" ++ decRepr q ++ "-" ++ decRepr j).data
      = (name.data ++ "_p".data ++ (decRepr q).data) ++ '-' :: (decRepr j).data := by
    simp [string_data_append]
  rw [h1, h2] at hdata
  have hald := congrArg afterLastDash hdata
  rw [afterLastDash_spec _ _ (decRepr_no_dash i), afterLastDash_spec _ _ (decRepr_no_dash j)]
    at hald
  exact decRepr_injective i j (string_eq_of_data_eq hald)

theorem mem_enumFrom_le (l : List (String × Nat)) (k : Nat) (x : Nat × (String × Nat))
    (hx : x ∈ List.enumFrom k l) : k ≤ x.1 := by
  induction l generalizing k with
  | nil => simp [List.enumFrom] at hx
  | cons e l ih =>
    rw [List.enumFrom_cons] at hx
    rcases List.mem_cons.mp hx with h | h
    · subst h
      simp
    · have := ih (k + 1) h
      omega

theorem document_ids_nodup_aux (name : String) (l : List (String × Nat)) (k : Nat) :
    ((List.enumFrom k l).map
      (fun ic => name ++ "_p" ++ decRepr ic.2.2 ++ "-" ++ decRepr ic.1)).Nodup := by
  induction l generalizing k with
  | nil => simp
  | cons e l ih =>
    rw [List.enumFrom_cons, List.map_cons, List.nodup_cons]
    refine ⟨?_, ih (k + 1)⟩
    intro hmem
    obtain ⟨ic, hic, hEq⟩ := List.mem_map.mp hmem
    have hk : ic.1 = k := docId_inj name ic.2.2 ic.1 e.2 k hEq
    have hle : k + 1 ≤ ic.1 := mem_enumFrom_le l (k + 1) ic hic
    omega

theorem windowsAux_nil (m fuel : Nat) : windowsAux m fuel [] = [] := by
  cases fuel <;> rfl

theorem windowsAux_cons (m fuel : Nat) (x : String) (xs : List String) :
    windowsAux m (fuel + 1) (x :: xs)
      = (x :: xs).take m :: windowsAux m fuel ((x :: xs).drop m) := rfl

theorem drop_length_le_fuel (m fuel : Nat) (hm : 0 < m) (x : String) (xs : List String)
    (hw : (x :: xs).length ≤ fuel + 1) : ((x :: xs).drop m).length ≤ fuel := by
  rw [List.length_drop]
  simp at hw ⊢
  omega

theorem windowsAux_join (m : Nat) (hm : 0 < m) :
    ∀ (fuel : Nat) (w : List String), w.length ≤ fuel → (windowsAux m fuel w).flatten = w := by
  intro fuel
  induction fuel with
  | zero =>
    intro w hw
    rw [List.length_eq_zero.mp (Nat.le_zero.mp hw)]
    rfl
  | succ fuel ih =>
    intro w hw
    cases w with
    | nil => rfl
    | cons x xs =>
      rw [windowsAux_cons, List.flatten_cons,
        ih ((x :: xs).drop m) (drop_length_le_fuel m fuel hm x xs hw), List.take_append_drop]

theorem windows_join (m : Nat) (hm : 0 < m) (w : List String) : (windows m w).flatten = w :=
  windowsAux_join m hm w.length w le_rfl

theorem windowsAux_subset (m : Nat) :
    ∀ (fuel : Nat) (w : List String), ∀ c ∈ windowsAux m fuel w, ∀ t ∈ c, t ∈ w := by
  intro fuel
  induction fuel with
  | zero => intro w c hc; simp [windowsAux] at hc
  | succ fuel ih =>
    intro w c hc t ht
    cases w with
    | nil => simp [windowsAux_nil] at hc
    | cons x xs =>
      rw [windowsAux_cons] at hc
      rcases List.mem_cons.mp hc with h | h
      · subst h
        exact List.take_subset m (x :: xs) ht
      · exact List.drop_subset m (x :: xs) (ih ((x :: xs).drop m) c h t ht)

theorem windowsAux_elem_ne_nil (m : Nat) (hm : 0 < m) :
    ∀ (fuel : Nat) (w : List String), ∀ c ∈ windowsAux m fuel w, c ≠ [] := by
  intro fuel
  induction fuel with
  | zero => intro w c hc; simp [windowsAux] at hc
  | succ fuel ih =>
    intro w c hc
    cases w with
    | nil => simp [windowsAux_nil] at hc
    | cons x xs =>
      rw [windowsAux_cons] at hc
      rcases List.mem_cons.mp hc with h | h
      · subst h
        simp [List.take_eq_nil_iff]
        omega
      · exact ih ((x :: xs).drop m) c h

theorem windowsAux_dropLast_full (m : Nat) (hm : 0 < m) :
    ∀ (fuel : Nat) (w : List String), w.length ≤ fuel →
      ∀ c ∈ (windowsAux m fuel w).dropLast, c.length = m := by
  intro fuel
  induction fuel with
  | zero => intro w hw c hc; simp [windowsAux] at hc
  | succ fuel ih =>
    intro w hw c hc
    cases w with
    | nil => simp [windowsAux_nil] at hc
    | cons x xs =>
      rw [windowsAux_cons] at hc
      rcases hrec : windowsAux m fuel ((x :: xs).drop m) with _ | ⟨r, rs⟩
      · rw [hrec] at hc
        simp at hc
      · rw [hrec, List.dropLast_cons₂] at hc
        rcases List.mem_cons.mp hc with h | h
        · subst h
          have hdrop : (x :: xs).drop m ≠ [] := by
            intro hnil
            rw [hnil, windowsAux_nil] at hrec
            exact absurd hrec (by simp)
          have hlen : m < (x :: xs).length := by
            by_contra hle
            exact hdrop (List.drop_eq_nil_of_le (by omega))
          rw [List.length_take]
          omega
        · exact ih ((x :: xs).drop m) (drop_length_le_fuel m fuel hm x xs hw) c
            (by rw [hrec]; exact h)

theorem windowsAux_full_of_dvd (m : Nat) (hm : 0 < m) :
    ∀ (fuel : Nat) (w : List String), w.length ≤ fuel → m ∣ w.length →
      ∀ c ∈ windowsAux m fuel w, c.length = m := by
  intro fuel
  induction fuel with
  | zero => intro w hw hdvd c hc; simp [windowsAux] at hc
  | succ fuel ih =>
    intro w hw hdvd c hc
    cases w with
    | nil => simp [windowsAux_nil] at hc
    | cons x xs =>
      have hle : m ≤ (x :: xs).length := Nat.le_of_dvd (by simp) hdvd
      rw [windowsAux_cons] at hc
      rcases List.mem_cons.mp hc with h | h
      · subst h
        rw [List.length_take]
        omega
      · refine ih ((x :: xs).drop m) (drop_length_le_fuel m fuel hm x xs hw) ?_ c h
        rw [List.length_drop]
        exact Nat.dvd_sub' hdvd dvd_rfl

theorem windows_single (m : Nat) (hm : 0 < m) (w : List String) (hw : w ≠ [])
    (hlen : w.length ≤ m) : windows m w = [w] := by
  cases w with
  | nil => exact absurd rfl hw
  | cons x xs =>
    show windowsAux m (x :: xs).length (x :: xs) = [x :: xs]
    rw [show (x :: xs).length = xs.length + 1 from rfl, windowsAux_cons,
      List.take_of_length_le hlen, List.drop_eq_nil_of_le hlen, windowsAux_nil]

theorem windows_subset (m : Nat) (w : List String) :
    ∀ c ∈ windows m w, ∀ t ∈ c, t ∈ w :=
  windowsAux_subset m w.length w

theorem windows_elem_ne_nil (m : Nat) (hm : 0 < m) (w : List String) :
    ∀ c ∈ windows m w, c ≠ [] :=
  windowsAux_elem_ne_nil m hm w.length w

theorem windows_dropLast_full (m : Nat) (hm : 0 < m) (w : List String) :
    ∀ c ∈ (windows m w).dropLast, c.length = m :=
  windowsAux_dropLast_full m hm w.length w le_rfl

theorem windows_full_of_dvd (m : Nat) (hm : 0 < m) (w : List String)
    (hdvd : m ∣ w.length) : ∀ c ∈ windows m w, c.length = m :=
  windowsAux_full_of_dvd m hm w.length w le_rfl hdvd

theorem getChunksGo_eq_tok (m : Nat) :
    ∀ (rest : List (List String × Nat)) (w : List String) (p : Nat),
      getChunksGo m w p rest
        = (getChunksTokGo m w p rest).map (fun cp => (formatChunk cp.1 cp.2, cp.2)) := by
  intro rest
  induction rest with
  | nil =>
    intro w p
    simp [getChunksGo, getChunksTokGo, List.map_map]
  | cons e rest ih =>
    intro w p
    obtain ⟨w2, p2⟩ := e
    simp [getChunksGo, getChunksTokGo, List.map_append, List.map_map, ih]

theorem getChunksTokGo_flatten (m : Nat) (hm : 0 < m) :
    ∀ (rest : List (List String × Nat)) (w : List String) (p : Nat),
      ((getChunksTokGo m w p rest).map Prod.fst).flatten
        = w ++ (rest.map Prod.fst).flatten := by
  intro rest
  induction rest with
  | nil =>
    intro w p
    simp only [getChunksTokGo, List.map_map, List.map_nil, List.flatten_nil,
      List.append_nil]
    have : (Prod.fst ∘ fun c => ((c : List String), p)) = id := rfl
    rw [this, List.map_id]
    exact windows_join m hm w
  | cons e rest ih =>
    intro w p
    obtain ⟨w2, p2⟩ := e
    simp only [getChunksTokGo, List.map_append, List.flatten_append, List.map_map]
    have : (Prod.fst ∘ fun c => ((c : List String), p)) = id := rfl
    rw [this, List.map_id, windows_join m hm, ih]
    rw [← List.append_assoc, ← List.append_assoc, List.take_append_drop]
    simp [List.append_assoc]

theorem getChunksTokGo_mem (m : Nat) (hm : 0 < m) :
    ∀ (rest : List (List String × Nat)) (w : List String) (p : Nat),
      ∀ cp ∈ getChunksTokGo m w p rest,
        cp.1 ≠ [] ∧ ∀ t ∈ cp.1, t ∈ w ∨ ∃ e ∈ rest, t ∈ e.1 := by
  intro rest
  induction rest with
  | nil =>
    intro w p cp hcp
    simp only [getChunksTokGo] at hcp
    obtain ⟨c, hc, hEq⟩ := List.mem_map.mp hcp
    cases hEq
    refine ⟨windows_elem_ne_nil m hm w c hc, ?_⟩
    intro t ht
    exact Or.inl (windows_subset m w c hc t ht)
  | cons e rest ih =>
    intro w p cp hcp
    obtain ⟨w2, p2⟩ := e
    simp only [getChunksTokGo] at hcp
    rcases List.mem_append.mp hcp with h | h
    · obtain ⟨c, hc, hEq⟩ := List.mem_map.mp h
      cases hEq
      refine ⟨windows_elem_ne_nil m hm _ c hc, ?_⟩
      intro t ht
      exact Or.inl (List.take_subset _ _ (windows_subset m _ c hc t ht))
    · obtain ⟨h1, h2⟩ := ih _ _ cp h
      refine ⟨h1, ?_⟩
      intro t ht
      rcases h2 t ht with h3 | ⟨e, he, hte⟩
      · rcases List.mem_append.mp h3 with h4 | h4
        · exact Or.inl (List.drop_subset _ _ h4)
        · exact Or.inr ⟨(w2, p2), by simp, h4⟩
      · exact Or.inr ⟨e, List.mem_cons_of_mem _ he, hte⟩

theorem getChunksGo_words_flatten (m : Nat) (hm : 0 < m)
    (rest : List (List String × Nat)) (w : List String) (p : Nat)
    (hw : ∀ t ∈ w, t ≠ "" ∧ ∀ x ∈ t.data, pyIsSpace x = false)
    (hrest : ∀ e ∈ rest, ∀ t ∈ e.1, t ≠ "" ∧ ∀ x ∈ t.data, pyIsSpace x = false) :
    ((getChunksGo m w p rest).map (fun cp => unwrapWords cp.1)).flatten
      = w ++ (rest.map Prod.fst).flatten := by
  rw [getChunksGo_eq_tok, List.map_map]
  have hcongr : ∀ cp ∈ getChunksTokGo m w p rest,
      ((fun cp => unwrapWords cp.1) ∘
        (fun cp => (formatChunk cp.1 cp.2, cp.2))) cp = Prod.fst cp := by
    intro cp hcp
    obtain ⟨h1, h2⟩ := getChunksTokGo_mem m hm rest w p cp hcp
    show unwrapWords (formatChunk cp.1 cp.2) = cp.1
    apply unwrapWords_formatChunk cp.1 cp.2 h1
    · intro t ht
      rcases h2 t ht with h | ⟨e, he, hte⟩
      · exact (hw t h).1
      · exact (hrest e he t hte).1
    · intro t ht
      rcases h2 t ht with h | ⟨e, he, hte⟩
      · exact (hw t h).2
      · exact (hrest e he t hte).2
  rw [List.map_congr_left hcongr]
  exact getChunksTokGo_flatten m hm rest w p

theorem take_mod_length_dvd (m : Nat) (hm : 0 < m) (w : List String) :
    m ∣ (List.take (w.length - w.length % m) w).length := by
  rw [List.length_take]
  have h1 := Nat.div_add_mod w.length m
  have h2 : w.length - w.length % m = m * (w.length / m) := by omega
  have h3 : min (w.length - w.length % m) w.length = w.length - w.length % m :=
    Nat.min_eq_left (by omega)
  rw [h3, h2]
  exact dvd_mul_right m (w.length / m)

theorem getChunksTokGo_dropLast_full (m : Nat) (hm : 0 < m) :
    ∀ (rest : List (List String × Nat)) (w : List String) (p : Nat),
      ∀ cp ∈ (getChunksTokGo m w p rest).dropLast, cp.1.length = m := by
  intro rest
  induction rest with
  | nil =>
    intro w p cp hcp
    simp only [getChunksTokGo] at hcp
    rw [← List.map_dropLast] at hcp
    obtain ⟨c, hc, hEq⟩ := List.mem_map.mp hcp
    cases hEq
    exact windows_dropLast_full m hm w c hc
  | cons e rest ih =>
    intro w p cp hcp
    obtain ⟨w2, p2⟩ := e
    simp only [getChunksTokGo] at hcp
    rcases hrec : getChunksTokGo m (w.drop (w.length - w.length % m) ++ w2) p2 rest
        with _ | ⟨r, rs⟩
    · rw [hrec, List.append_nil] at hcp
      have hcp2 := List.dropLast_subset _ hcp
      obtain ⟨c, hc, hEq⟩ := List.mem_map.mp hcp2
      cases hEq
      exact windows_full_of_dvd m hm _ (take_mod_length_dvd m hm w) c hc
    · rw [hrec, List.dropLast_append_cons] at hcp
      rcases List.mem_append.mp hcp with h | h
      · obtain ⟨c, hc, hEq⟩ := List.mem_map.mp h
        cases hEq
        exact windows_full_of_dvd m hm _ (take_mod_length_dvd m hm w) c hc
      · exact ih _ _ cp (by rw [hrec]; exact h)

theorem getChunksGo_dropLast_words (m : Nat) (hm : 0 < m)
    (rest : List (List String × Nat)) (w : List String) (p : Nat)
    (hw : ∀ t ∈ w, t ≠ "" ∧ ∀ x ∈ t.data, pyIsSpace x = false)
    (hrest : ∀ e ∈ rest, ∀ t ∈ e.1, t ≠ "" ∧ ∀ x ∈ t.data, pyIsSpace x = false) :
    ∀ cp ∈ (getChunksGo m w p rest).dropLast, (unwrapWords cp.1).length = m := by
  intro cp hcp
  rw [getChunksGo_eq_tok, ← List.map_dropLast] at hcp
  obtain ⟨cp2, hcp2, hEq⟩ := List.mem_map.mp hcp
  cases hEq
  have hmem : cp2 ∈ getChunksTokGo m w p rest := List.dropLast_subset _ hcp2
  obtain ⟨h1, h2⟩ := getChunksTokGo_mem m hm rest w p cp2 hmem
  have hne : ∀ t ∈ cp2.1, t ≠ "" := by
    intro t ht
    rcases h2 t ht with h | ⟨e, he, hte⟩
    · exact (hw t h).1
    · exact (hrest e he t hte).1
  have hsp : ∀ t ∈ cp2.1, ∀ x ∈ t.data, pyIsSpace x = false := by
    intro t ht
    rcases h2 t ht with h | ⟨e, he, hte⟩
    · exact (hw t h).2
    · exact (hrest e he t hte).2
  show (unwrapWords (formatChunk cp2.1 cp2.2)).length = m
  rw [unwrapWords_formatChunk cp2.1 cp2.2 h1 hne hsp]
  exact getChunksTokGo_dropLast_full m hm rest w p cp2 hcp2

theorem getChunksGo_single (m : Nat) (hm : 0 < m) :
    ∀ (rest : List (List String × Nat)) (w : List String) (p : Nat),
      w ≠ [] → (∀ e ∈ rest, e.1 ≠ []) →
      w.length + ((rest.map Prod.fst).map List.length).sum ≤ m →
      getChunksGo m w p rest
        = [(formatChunk (w ++ (rest.map Prod.fst).flatten) (lastPageNum p rest),
            lastPageNum p rest)] := by
  intro rest
  induction rest with
  | nil =>
    intro w p hw _ hlen
    simp only [getChunksGo]
    rw [windows_single m hm w hw (by simpa using hlen)]
    simp [lastPageNum]
  | cons e rest ih =>
    intro w p hw hne hlen
    obtain ⟨w2, p2⟩ := e
    have hw2 : w2 ≠ [] := hne (w2, p2) (by simp)
    have hw2len : 1 ≤ w2.length := List.length_pos.mpr hw2
    have hsum : (((w2, p2) :: rest).map Prod.fst).map List.length
        = w2.length :: ((rest.map Prod.fst).map List.length) := rfl
    have hn : w.length < m := by
      rw [hsum, List.sum_cons] at hlen
      omega
    have hmod : w.length % m = w.length := Nat.mod_eq_of_lt hn
    simp only [getChunksGo]
    rw [hmod, Nat.sub_self, List.take_zero, List.drop_zero]
    have hwnil : windows m ([] : List String) = [] := rfl
    rw [hwnil, List.map_nil, List.nil_append]
    rw [ih (w ++ w2) p2 (by simp [hw2]) (fun e he => hne e (List.mem_cons_of_mem _ he))
      (by rw [List.length_append]; rw [hsum, List.sum_cons] at hlen; omega)]
    show [(formatChunk ((w ++ w2) ++ (rest.map Prod.fst).flatten) (lastPageNum p2 rest),
      lastPageNum p2 rest)]
      = [(formatChunk (w ++ ((w2 :: rest.map Prod.fst)).flatten) (lastPageNum p ((w2, p2) :: rest)),
          lastPageNum p ((w2, p2) :: rest))]
    rw [List.flatten_cons, ← List.append_assoc]
    rfl

theorem lastPageNum_map_pages :
    ∀ (pages : List Page) (q : Nat), pages ≠ [] →
      lastPageNum q (pages.map (fun page => (pageTokens page.raw_text, page.page_number)))
        = lastPageOf pages := by
  intro pages
  induction pages with
  | nil => intro q h; exact absurd rfl h
  | cons pg rest ih =>
    intro q _
    cases rest with
    | nil => simp [lastPageNum, lastPageOf]
    | cons pg2 rest2 =>
      show lastPageNum pg.page_number
        ((pg2 :: rest2).map (fun page => (pageTokens page.raw_text, page.page_number)))
        = lastPageOf (pg :: pg2 :: rest2)
      rw [ih pg.page_number (by simp)]
      simp [lastPageOf, List.getLast?_cons_cons]

theorem get_chunks_nil (max_words : Nat) : get_chunks [] max_words = [] := rfl

theorem get_chunks_cons (pg : Page) (pages : List Page) (max_words : Nat) :
    get_chunks (pg :: pages) max_words
      = getChunksGo max_words (pageTokens pg.raw_text) pg.page_number
          (pages.map (fun page => (pageTokens page.raw_text, page.page_number))) := rfl

theorem clean_text_all_space (s : String) (hne : s ≠ "")
    (h : ∀ c ∈ s.data, pyIsSpace c = true) : clean_text s = " " := by
  apply string_eq_of_data_eq
  show collapseAux false (replaceNewlines s.data) = [' ']
  rcases hd : s.data with _ | ⟨c, cs⟩
  · exact absurd hd ((string_ne_empty_iff_data s).mp hne)
  · show collapseAux false ((c :: cs).map (fun c => if c = '\n' then ' ' else c)) = [' ']
    rw [List.map_cons, collapseAux,
      if_pos (replaceNewlines_space c (h c (by rw [hd]; exact List.mem_cons_self c cs)))]
    simp only [Bool.false_eq_true, if_false]
    rw [collapseAux_true_all_space]
    intro x hx
    obtain ⟨y, hy, hEq⟩ := List.mem_map.mp hx
    rw [← hEq]
    exact replaceNewlines_space y (h y (by rw [hd]; exact List.mem_cons_of_mem c hy))

theorem string_join_cons (s : String) (l : List String) :
    String.join (s :: l) = s ++ String.join l := by
  apply string_eq_of_data_eq
  simp [string_data_append]

/-- C1 fails as stated: for a page whose text has leading whitespace, the
`.strip()` applied to the emitted chunk text drops the leading empty token, so
re-splitting the unwrapped chunk no longer reproduces the page's token list. -/
theorem C1_counterexample :
    ¬ (((get_chunks [(⟨" a", 1⟩ : Page)] 150).map (fun cp => unwrapWords cp.1)).flatten
        = ([(⟨" a", 1⟩ : Page)].map (fun page => pageTokens page.raw_text)).flatten) := by
  decide

/-- C1 (amended): for every positive `max_words` and every list of pages whose
normalized word lists contain no empty token (page text nonempty, no leading or
trailing whitespace), concatenating the words of every chunk emitted by
`get_chunks` (after stripping the `[Page no. N] "..."` wrapper) in emission
order yields exactly the concatenation of the normalized word sequences of the
pages in page order. -/
theorem chunk_words_reconstruct (pages : List Page) (max_words : Nat)
    (hm : 0 < max_words)
    (hne : ∀ page ∈ pages, ∀ t ∈ pageTokens page.raw_text, t ≠ "") :
    ((get_chunks pages max_words).map (fun cp => unwrapWords cp.1)).flatten
      = (pages.map (fun page => pageTokens page.raw_text)).flatten := by
  cases pages with
  | nil => rfl
  | cons pg rest =>
    rw [get_chunks_cons]
    have hrest : ∀ e ∈ rest.map (fun page => (pageTokens page.raw_text, page.page_number)),
        ∀ t ∈ e.1, t ≠ "" ∧ ∀ x ∈ t.data, pyIsSpace x = false := by
      intro e he t ht
      obtain ⟨page, hpage, hFe⟩ := List.mem_map.mp he
      cases hFe
      exact ⟨hne page (List.mem_cons_of_mem _ hpage) t ht,
        pageTokens_no_space page.raw_text t ht⟩
    rw [getChunksGo_words_flatten max_words hm _ _ _
      (fun t ht => ⟨hne pg (List.mem_cons_self _ _) t ht,
        pageTokens_no_space pg.raw_text t ht⟩) hrest]
    rw [List.map_map]
    have hcomp : (Prod.fst ∘ fun (page : Page) => (pageTokens page.raw_text, page.page_number))
        = fun (page : Page) => pageTokens page.raw_text := rfl
    rw [hcomp, List.map_cons, List.flatten_cons]

/-- Witness: the amended C1 theorem applied to a concrete two-page document
with carry. -/
theorem chunk_words_reconstruct_witness :
    0 < 2 ∧
    (∀ page ∈ [(⟨"a b c", 1⟩ : Page), ⟨"d e", 2⟩],
      ∀ t ∈ pageTokens page.raw_text, t ≠ "") ∧
    ((get_chunks [(⟨"a b c", 1⟩ : Page), ⟨"d e", 2⟩] 2).map
        (fun cp => unwrapWords cp.1)).flatten
      = ([(⟨"a b c", 1⟩ : Page), ⟨"d e", 2⟩].map
          (fun page => pageTokens page.raw_text)).flatten :=
  ⟨by decide, by decide, chunk_words_reconstruct _ 2 (by decide) (by decide)⟩

/-- C2 fails as stated: with a leading-whitespace page, a full 2-token window
`["", "a"]` is emitted as a chunk whose stripped text has only one word, which
is below `max_words = 2` although it is not the final chunk. -/
theorem C2_counterexample :
    2 ≤ ([(⟨" a", 1⟩ : Page), ⟨"b c", 2⟩] : List Page).length ∧
    2 < totalWords [(⟨" a", 1⟩ : Page), ⟨"b c", 2⟩] ∧
    ¬ (∀ cp ∈ (get_chunks [(⟨" a", 1⟩ : Page), ⟨"b c", 2⟩] 2).dropLast,
        2 ≤ (unwrapWords cp.1).length) := by
  decide

/-- C2 (amended): for every positive `max_words` and every input of at least
two pages with combined word count exceeding `max_words`, whose normalized
word lists contain no empty token, every emitted chunk except possibly the
final one contains at least `max_words` words. -/
theorem chunks_full_before_last (pages : List Page) (max_words : Nat)
    (hm : 0 < max_words)
    (hne : ∀ page ∈ pages, ∀ t ∈ pageTokens page.raw_text, t ≠ "")
    (hpages : 2 ≤ pages.length)
    (hcount : max_words < totalWords pages) :
    ∀ cp ∈ (get_chunks pages max_words).dropLast,
      max_words ≤ (unwrapWords cp.1).length := by
  cases pages with
  | nil =>
    intro cp hcp
    rw [get_chunks_nil] at hcp
    simp at hcp
  | cons pg rest =>
    intro cp hcp
    rw [get_chunks_cons] at hcp
    have hrest : ∀ e ∈ rest.map (fun page => (pageTokens page.raw_text, page.page_number)),
        ∀ t ∈ e.1, t ≠ "" ∧ ∀ x ∈ t.data, pyIsSpace x = false := by
      intro e he t ht
      obtain ⟨page, hpage, hFe⟩ := List.mem_map.mp he
      cases hFe
      exact ⟨hne page (List.mem_cons_of_mem _ hpage) t ht,
        pageTokens_no_space page.raw_text t ht⟩
    have := getChunksGo_dropLast_words max_words hm _ _ _
      (fun t ht => ⟨hne pg (List.mem_cons_self _ _) t ht,
        pageTokens_no_space pg.raw_text t ht⟩) hrest cp hcp
    omega

/-- Witness: the amended C2 theorem applied to a concrete two-page document. -/
theorem chunks_full_before_last_witness :
    0 < 2 ∧
    (∀ page ∈ [(⟨"a b c", 1⟩ : Page), ⟨"d e f", 2⟩],
      ∀ t ∈ pageTokens page.raw_text, t ≠ "") ∧
    2 ≤ ([(⟨"a b c", 1⟩ : Page), ⟨"d e f", 2⟩] : List Page).length ∧
    2 < totalWords [(⟨"a b c", 1⟩ : Page), ⟨"d e f", 2⟩] ∧
    (∀ cp ∈ (get_chunks [(⟨"a b c", 1⟩ : Page), ⟨"d e f", 2⟩] 2).dropLast,
      2 ≤ (unwrapWords cp.1).length) :=
  ⟨by decide, by decide, by decide, by decide,
    chunks_full_before_last _ 2 (by decide) (by decide) (by decide) (by decide)⟩

/-- C3 fails as stated: inserting a page with empty extracted text changes the
output of `get_chunks` (its empty token is carried and relabels the final
chunk), and a document consisting of a single zero-word page emits a chunk. -/
theorem C3_counterexample :
    get_chunks [(⟨"a", 1⟩ : Page), ⟨"", 2⟩] 150 ≠ get_chunks [(⟨"a", 1⟩ : Page)] 150 ∧
    get_chunks [(⟨"", 1⟩ : Page)] 150 ≠ [] := by
  decide

/-- C3 (amended): a page with empty extracted text yields the one-token word
list `[""]` and a whitespace-only page yields `["", ""]`; such a page is not
inert: when it is the only (hence last) page its window is emitted as a chunk
with empty quoted body, and when a next page exists (and `max_words ≥ 2`) its
empty token is prepended to the next page's word list, so inserting a
zero-word page can change the output of `get_chunks`. -/
theorem empty_page_contributes :
    pageTokens "" = [""] ∧
    (∀ s : String, s ≠ "" → (∀ c ∈ s.data, pyIsSpace c = true) →
      pageTokens s = ["", ""]) ∧
    (∀ (p max_words : Nat), 0 < max_words →
      get_chunks [⟨"", p⟩] max_words = [(formatChunk [""] p, p)]) ∧
    (∀ (p : Nat) (pg : Page) (rest : List Page) (max_words : Nat), 2 ≤ max_words →
      get_chunks (⟨"", p⟩ :: pg :: rest) max_words
        = getChunksGo max_words ("" :: pageTokens pg.raw_text) pg.page_number
            (rest.map (fun page => (pageTokens page.raw_text, page.page_number)))) := by
  refine ⟨rfl, ?_, ?_, ?_⟩
  · intro s hne hsp
    unfold pageTokens
    rw [clean_text_all_space s hne hsp]
    rfl
  · intro p max_words hm
    rw [get_chunks_cons]
    show getChunksGo max_words (pageTokens "") p [] = [(formatChunk [""] p, p)]
    have htok : pageTokens "" = [""] := rfl
    rw [htok]
    simp only [getChunksGo]
    rw [windows_single max_words hm [""] (by simp) (by simp; omega)]
    rfl
  · intro p pg rest max_words hm
    rw [get_chunks_cons]
    show getChunksGo max_words (pageTokens "") p
        ((pageTokens pg.raw_text, pg.page_number)
          :: rest.map (fun page => (pageTokens page.raw_text, page.page_number)))
      = getChunksGo max_words ("" :: pageTokens pg.raw_text) pg.page_number
          (rest.map (fun page => (pageTokens page.raw_text, page.page_number)))
    have htok : pageTokens "" = [""] := rfl
    rw [htok]
    simp only [getChunksGo]
    have hlen : ([""] : List String).length = 1 := rfl
    rw [hlen, Nat.mod_eq_of_lt (by omega), Nat.sub_self, List.take_zero, List.drop_zero]
    have hwin : windows max_words ([] : List String) = [] := rfl
    rw [hwin, List.map_nil, List.nil_append]
    rfl

/-- Witness: the amended C3 theorem applied at concrete inputs. -/
theorem empty_page_contributes_witness :
    pageTokens " " = ["", ""] ∧
    get_chunks [(⟨"", 5⟩ : Page)] 3 = [(formatChunk [""] 5, 5)] ∧
    get_chunks [(⟨"", 1⟩ : Page), ⟨"a", 2⟩] 3
      = getChunksGo 3 ("" :: pageTokens "a") 2 [] :=
  ⟨empty_page_contributes.2.1 " " (by decide) (by decide),
   empty_page_contributes.2.2.1 5 3 (by decide),
   empty_page_contributes.2.2.2 1 ⟨"a", 2⟩ [] 3 (by decide)⟩

/-- C4 fails as stated for the empty list of pages: its total word count is 0,
yet `get_chunks` emits no chunk rather than exactly one. -/
theorem C4_counterexample :
    totalWords ([] : List Page) ≤ 150 ∧ (get_chunks [] 150).length ≠ 1 := by
  decide

/-- C4 (amended): for every nonempty list of pages and positive `max_words`
with total word count at most `max_words`, `get_chunks` emits exactly one
chunk, built from every word of the document in order, and that chunk is
labeled with the page number of the last page (which received all carried
words). -/
theorem single_chunk_of_small_doc (pages : List Page) (max_words : Nat)
    (hpages : pages ≠ []) (hm : 0 < max_words)
    (htotal : totalWords pages ≤ max_words) :
    get_chunks pages max_words
      = [(formatChunk ((pages.map (fun page => pageTokens page.raw_text)).flatten)
            (lastPageOf pages), lastPageOf pages)] := by
  cases pages with
  | nil => exact absurd rfl hpages
  | cons pg rest =>
    rw [get_chunks_cons]
    have hne : ∀ e ∈ rest.map (fun page => (pageTokens page.raw_text, page.page_number)),
        e.1 ≠ [] := by
      intro e he
      obtain ⟨page, hpage, hFe⟩ := List.mem_map.mp he
      cases hFe
      exact pySplit_ne_nil _
    have hsum : (((rest.map (fun page => (pageTokens page.raw_text, page.page_number))).map
          Prod.fst).map List.length).sum
        = (rest.map (fun page => (pageTokens page.raw_text).length)).sum := by
      rw [List.map_map, List.map_map]
      rfl
    have hlen : (pageTokens pg.raw_text).length
        + (((rest.map (fun page => (pageTokens page.raw_text, page.page_number))).map
            Prod.fst).map List.length).sum ≤ max_words := by
      rw [hsum]
      have : totalWords (pg :: rest)
          = (pageTokens pg.raw_text).length
            + (rest.map (fun page => (pageTokens page.raw_text).length)).sum := by
        simp [totalWords]
      omega
    rw [getChunksGo_single max_words hm _ _ _
      (show pageTokens pg.raw_text ≠ [] from pySplit_ne_nil _) hne hlen]
    have hlp : lastPageNum pg.page_number
        (rest.map (fun page => (pageTokens page.raw_text, page.page_number)))
        = lastPageOf (pg :: rest) := by
      have h0 := lastPageNum_map_pages (pg :: rest) 0 (by simp)
      rw [List.map_cons] at h0
      exact h0
    rw [hlp]
    have hwords : pageTokens pg.raw_text
        ++ ((rest.map (fun page => (pageTokens page.raw_text, page.page_number))).map
            Prod.fst).flatten
        = ((pg :: rest).map (fun page => pageTokens page.raw_text)).flatten := by
      rw [List.map_map]
      have hcomp : (Prod.fst ∘ fun (page : Page) => (pageTokens page.raw_text, page.page_number))
          = fun (page : Page) => pageTokens page.raw_text := rfl
      rw [hcomp, List.map_cons, List.flatten_cons]
    rw [hwords]

/-- Witness: the amended C4 theorem applied to a concrete two-page document
that fits in one window. -/
theorem single_chunk_of_small_doc_witness :
    ([(⟨"a", 1⟩ : Page), ⟨"b", 2⟩] : List Page) ≠ [] ∧ 0 < 150 ∧
    totalWords [(⟨"a", 1⟩ : Page), ⟨"b", 2⟩] ≤ 150 ∧
    get_chunks [(⟨"a", 1⟩ : Page), ⟨"b", 2⟩] 150
      = [(formatChunk (([(⟨"a", 1⟩ : Page), ⟨"b", 2⟩].map
            (fun page => pageTokens page.raw_text)).flatten)
            (lastPageOf [(⟨"a", 1⟩ : Page), ⟨"b", 2⟩]),
          lastPageOf [(⟨"a", 1⟩ : Page), ⟨"b", 2⟩])] :=
  ⟨by simp, by decide, by decide,
    single_chunk_of_small_doc _ 150 (by simp) (by decide) (by decide)⟩

/-- C5: the documented two-page scenario.  Page 1 has 170 words, Page 2 has 80
words, `max_words = 150`: exactly two chunks are emitted; the first is built
from Page 1's words `[0:150]` with page number 1, the second from the 20
carried Page-1 words followed by Page 2's 80 words (100 words total) with page
number 2. -/
theorem two_page_carry_scenario :
    (pageTokens c5page1.raw_text).length = 170 ∧
    (pageTokens c5page2.raw_text).length = 80 ∧
    get_chunks [c5page1, c5page2] 150
      = [(formatChunk ((pageTokens c5page1.raw_text).take 150) 1, 1),
         (formatChunk ((pageTokens c5page1.raw_text).drop 150
            ++ pageTokens c5page2.raw_text) 2, 2)] ∧
    ((pageTokens c5page1.raw_text).drop 150 ++ pageTokens c5page2.raw_text).length = 100 := by
  refine ⟨by decide, by decide, by decide, by decide⟩

/-- C6: the bootstrap state machine of the ingestion cell.  When the get-by-
name lookup succeeds, `ensure_collection` reports `COLLECTION_EXISTS` and the
ingestion run performs zero `add` calls; only when the lookup fails is the
collection created and `insert_document` run over the PDFs (one `add` call
each). -/
theorem ingestion_idempotent (st : Store) (pdfs : List PdfDocument) :
    (demo_collection ∈ st.collections →
      (ensure_collection st).1.1 = CollectionStatus.COLLECTION_EXISTS ∧
      (runIngestion st pdfs).2.addCalls = st.addCalls) ∧
    (demo_collection ∉ st.collections →
      (ensure_collection st).1.1 = CollectionStatus.COLLECTION_CREATED ∧
      (runIngestion st pdfs).2.addCalls = st.addCalls + pdfs.length) := by
  have hfold : ∀ (ds : List PdfDocument) (s : Store),
      (ds.foldl (fun s d => insert_document d s) s).addCalls = s.addCalls + ds.length := by
    intro ds
    induction ds with
    | nil => intro s; simp
    | cons d ds ih =>
      intro s
      rw [List.foldl_cons, ih]
      show (collectionAdd s).addCalls + ds.length = s.addCalls + (ds.length + 1)
      show s.addCalls + 1 + ds.length = s.addCalls + (ds.length + 1)
      omega
  constructor
  · intro hmem
    have hget : get_collection st demo_collection = some () := by
      simp [get_collection, hmem]
    constructor
    · simp [ensure_collection, hget]
    · simp [runIngestion, ensure_collection, hget]
  · intro hmem
    have hget : get_collection st demo_collection = none := by
      simp [get_collection, hmem]
    constructor
    · simp [ensure_collection, hget]
    · simp [runIngestion, ensure_collection, hget, hfold, get_or_create_collection, hmem]

/-- Witness: a store already holding the collection name performs zero `add`
calls on a re-run. -/
theorem ingestion_idempotent_witness :
    (ensure_collection ⟨["harry_potter"], 0⟩).1.1 = CollectionStatus.COLLECTION_EXISTS ∧
    (runIngestion ⟨["harry_potter"], 0⟩ [⟨"hp", []⟩]).2.addCalls
      = (⟨["harry_potter"], 0⟩ : Store).addCalls :=
  (ingestion_idempotent ⟨["harry_potter"], 0⟩ [⟨"hp", []⟩]).1 (by decide)

theorem build_prompt_foldl (l : List String) :
    ∀ init : String, l.foldl (fun acc chunk => acc ++ chunk ++ "\n\n") init
      = init ++ String.join (l.map (fun chunk => chunk ++ "\n\n")) := by
  induction l with
  | nil =>
    intro init
    show init = init ++ String.join []
    rw [show String.join [] = "" from rfl, String.append_empty]
  | cons c cs ih =>
    intro init
    rw [List.foldl_cons, ih, List.map_cons, string_join_cons]
    simp [String.append_assoc]

/-- C7: `build_prompt` returns exactly the header, the chunk texts in order
each suffixed with a double newline, the fixed instruction block, and the
query/answer suffix; with no chunks the header is immediately followed by the
instruction block. -/
theorem build_prompt_structure :
    (∀ (question : String) (topn_chunks : List String),
      build_prompt question topn_chunks
        = "Search results:\n"
          ++ String.join (topn_chunks.map (fun chunk => chunk ++ "\n\n"))
          ++ instructionsText ++ "\n\n\nQuery: " ++ question ++ "\n\nAnswer: ") ∧
    build_prompt "Q" []
      = "Search results:\n" ++ instructionsText ++ "\n\n\nQuery: Q\n\nAnswer: " := by
  constructor
  · intro question topn_chunks
    show (topn_chunks.foldl (fun acc chunk => acc ++ chunk ++ "\n\n") "Search results:\n")
        ++ instructionsText ++ "\n\n\nQuery: " ++ question ++ "\n\nAnswer: "
      = "Search results:\n"
          ++ String.join (topn_chunks.map (fun chunk => chunk ++ "\n\n"))
          ++ instructionsText ++ "\n\n\nQuery: " ++ question ++ "\n\nAnswer: "
    rw [build_prompt_foldl]
  · exact string_eq_of_data_eq rfl

/-- C8: the identifiers `{document_name}_p{page_number}-{chunk_index}` built by
`insert_document` over the chunk sequence of `get_chunks`, with `chunk_index`
the zero-based emission position, are pairwise distinct. -/
theorem insert_document_ids_nodup (stem : String) (pages : List Page) (max_words : Nat) :
    (document_ids (documentNameOf stem) (get_chunks pages max_words)).Nodup := by
  show ((List.enumFrom 0 (get_chunks pages max_words)).map
    (fun ic => documentNameOf stem ++ "_p" ++ decRepr ic.2.2 ++ "-" ++ decRepr ic.1)).Nodup
  exact document_ids_nodup_aux (documentNameOf stem) _ 0

/-- C9: the streaming consumer does not skip a malformed fragment.  The
`except: pass` leaves `data` bound to the previous fragment, whose content is
then printed a second time; with content fragment A, a malformed fragment and
a stop fragment, the code emits A twice while the claimed behavior emits A
once, and a malformed first fragment hits an unassigned `data` (NameError). -/
theorem C9_stale_data_eval :
    consumeFragments none [some ⟨"A", false⟩, none, some ⟨"B", true⟩]
      = some ["A", "A"] ∧
    claimedFragments [some ⟨"A", false⟩, none, some ⟨"B", true⟩] = ["A"] ∧
    consumeFragments none [none, some ⟨"A", false⟩] = none := by
  decide

/-- C10: every nonempty whitespace-only string is normalized by `clean_text`
to a single space (never to the empty string); splitting a normalized page
text on single spaces never yields an empty list; the empty page yields the
one-element list `[""]`; and a page with leading (resp. trailing) whitespace
yields an empty-string token at the front (resp. back) of its word list. -/
theorem clean_text_whitespace_split :
    (∀ s : String, s ≠ "" → (∀ c ∈ s.data, pyIsSpace c = true) → clean_text s = " ") ∧
    (∀ s : String, pySplit (clean_text s) ≠ []) ∧
    pySplit (clean_text "") = [""] ∧
    (∀ (s : String) (c : Char) (cs : List Char), s.data = c :: cs → pyIsSpace c = true →
      (pySplit (clean_text s)).head? = some "") ∧
    (∀ (s : String) (c : Char), s.data.getLast? = some c → pyIsSpace c = true →
      (pySplit (clean_text s)).getLast? = some "") := by
  refine ⟨clean_text_all_space, fun s => pySplit_ne_nil _, rfl, ?_, ?_⟩
  · intro s c cs hd hsp
    show (pySplitAux (collapseAux false (replaceNewlines s.data))).head? = some ""
    rw [hd]
    show (pySplitAux (collapseAux false
      ((c :: cs).map (fun x => if x = '\n' then ' ' else x)))).head? = some ""
    rw [List.map_cons, collapseAux, if_pos (replaceNewlines_space c hsp)]
    simp only [Bool.false_eq_true, if_false]
    rw [pySplitAux_cons_space]
    rfl
  · intro s c hlast hsp
    have hsne : s.data ≠ [] := by
      intro h
      rw [h] at hlast
      simp at hlast
    have hrn_last : (replaceNewlines s.data).getLast? = some (if c = '\n' then ' ' else c) := by
      unfold replaceNewlines
      rw [List.getLast?_map, hlast]
      rfl
    have hrsp : pyIsSpace (if c = '\n' then ' ' else c) = true := replaceNewlines_space c hsp
    have hrne : replaceNewlines s.data ≠ [] := by
      unfold replaceNewlines
      simpa using hsne
    rcases collapseAux_ends_space (replaceNewlines s.data) _ hrn_last hrsp false
        with h | ⟨l2, h⟩
    · exfalso
      rcases hr : replaceNewlines s.data with _ | ⟨x, xs⟩
      · exact hrne hr
      · rw [hr] at h
        exact collapseAux_false_ne_nil x xs h
    · show (pySplitAux (collapseAux false (replaceNewlines s.data))).getLast? = some ""
      rw [h, pySplitAux_append_space]
      exact List.getLast?_concat _

/-- Witness: the C10 theorem applied at concrete inputs. -/
theorem clean_text_whitespace_split_witness :
    clean_text " \t\n" = " " ∧
    pySplit (clean_text "a b") ≠ [] ∧
    (pySplit (clean_text " a")).head? = some "" ∧
    (pySplit (clean_text "a ")).getLast? = some "" :=
  ⟨clean_text_whitespace_split.1 " \t\n" (by decide) (by decide),
   clean_text_whitespace_split.2.1 "a b",
   clean_text_whitespace_split.2.2.2.1 " a" ' ' "a".data (by decide) (by decide),
   clean_text_whitespace_split.2.2.2.2 "a " ' ' (by decide) (by decide)⟩
